import Mathlib

/-!
Shallow embedding of the dltofu repository (Go) for specification checking.

The Go code keeps its state in (nested) maps; here maps are association
lists (`List (κ × α)`) with first-match lookup, mirroring map-key
uniqueness where the Go runtime guarantees it via explicit `Nodup`
hypotheses.  Byte slices are `List Nat`, Go strings that undergo
character processing are `List Char`, plain identifier strings are
`String`.  File-system and network effects are threaded explicitly.
-/

deriving instance DecidableEq for Except

namespace Dltofu

/-- First-match association-list lookup, mirroring a Go map read `m[k]`. -/
def lookupA {κ α : Type} [DecidableEq κ] (k : κ) : List (κ × α) → Option α
  | [] => none
  | (k', v) :: rest => if k' = k then some v else lookupA k rest

/-- Association-list write, mirroring a Go map assignment `m[k] = v`. -/
def insertA {κ α : Type} [DecidableEq κ] (k : κ) (v : α) : List (κ × α) → List (κ × α)
  | [] => [(k, v)]
  | (k', v') :: rest => if k' = k then (k', v) :: rest else (k', v') :: insertA k v rest

/-- `internal/hash.Hash`: an algorithm tag and a raw byte sequence.
The algorithm is the Go `HashAlgorithm` string, bytes are `Nat` (values below 256). -/
structure Hash where
  algorithm : List Char
  hashValue : List Nat
deriving DecidableEq, Repr

/-- `Hash.Equal` from `internal/hash/hash.go`: algorithms must match, lengths must
match, and the byte sequences must agree pointwise. -/
def Hash.equal (h other : Hash) : Bool :=
  if h.algorithm ≠ other.algorithm then false
  else if h.hashValue.length ≠ other.hashValue.length then false
  else (h.hashValue.zip other.hashValue).all fun p => p.1 == p.2

/-- `internal/lock.LockFile`: format version and the nested
file-id → resolved-url → digest mapping (the `path`, `mu`, `logger`
fields carry no store content and are not modelled). -/
structure LockFile where
  version : Int
  files : List (String × List (String × Hash))
deriving DecidableEq, Repr

/-- `lock.LockFileVersion`. -/
def lockFileVersion : Int := 1

/-- `lock.NewLockFile`: current version, empty mapping. -/
def newLockFile : LockFile := { version := lockFileVersion, files := [] }

/-- `LockFile.GetHash`: two-level lookup, distinguishing a missing file id
from a missing url entry. -/
def getHash (lf : LockFile) (fileID url : String) : Except String Hash :=
  match lookupA fileID lf.files with
  | none => .error "file ID not found in lock file"
  | some fileLocks =>
    match lookupA url fileLocks with
    | none => .error "hash not found"
    | some h => .ok h

/-- `LockFile.SetHash`: ensure the inner map exists, then reject a write whose
digest differs from a previously stored one; otherwise write/overwrite.
The returned pair is (store after the call, error if any), mirroring the Go
method that mutates its receiver and returns an `error`. -/
def setHash (lf : LockFile) (fileID url : String) (newHash : Hash) :
    LockFile × Option String :=
  let files1 :=
    if lookupA fileID lf.files = none then insertA fileID [] lf.files else lf.files
  let urls := (lookupA fileID files1).getD []
  match lookupA url urls with
  | some existingHash =>
    if existingHash.equal newHash then
      ({ lf with files := insertA fileID (insertA url newHash urls) files1 }, none)
    else
      ({ lf with files := files1 }, some "hash inconsistency")
  | none =>
    ({ lf with files := insertA fileID (insertA url newHash urls) files1 }, none)

/-- Inner loop of `LockFile.Prune`: keep only the urls of `existingURLs`
that appear in `activeURLs`. -/
def pruneURLs (existingURLs : List (String × Hash)) (activeURLs : List String) :
    List (String × Hash) :=
  existingURLs.filter fun p => decide (p.1 ∈ activeURLs)

/-- `LockFile.Prune` body: rebuild the outer map from the active set, keeping a
file id only when some of its recorded urls are still active. -/
def pruneFiles (files : List (String × List (String × Hash))) :
    List (String × List String) → List (String × List (String × Hash))
  | [] => []
  | (fileID, activeURLs) :: rest =>
    match lookupA fileID files with
    | some existingURLs =>
      let prunedURLs := pruneURLs existingURLs activeURLs
      if 0 < prunedURLs.length then
        insertA fileID prunedURLs (pruneFiles files rest)
      else
        pruneFiles files rest
    | none => pruneFiles files rest

/-- `LockFile.Prune`. -/
def prune (lf : LockFile) (activeFiles : List (String × List String)) : LockFile :=
  { lf with files := pruneFiles lf.files activeFiles }

/-- Specification-level accessor: the digest a store records for (fileID, url). -/
def lookup2 (lf : LockFile) (fileID url : String) : Option Hash :=
  match lookupA fileID lf.files with
  | none => none
  | some fileLocks => lookupA url fileLocks

/-- Membership of (fileID, url) in an active set. -/
def memActive (active : List (String × List String)) (fileID url : String) : Bool :=
  match lookupA fileID active with
  | none => false
  | some urls => decide (url ∈ urls)

/-! ### Unix path handling (`path/filepath` as used by the extractor) -/

/-- `strings.Split(path, "/")` over characters. -/
def splitOnSlash : List Char → List (List Char)
  | [] => [[]]
  | c :: rest =>
    if c = '/' then [] :: splitOnSlash rest
    else
      match splitOnSlash rest with
      | [] => [[c]]
      | comp :: comps => (c :: comp) :: comps

/-- Join components with the path separator. -/
def intercalateSlash : List (List Char) → List Char
  | [] => []
  | [c] => c
  | c :: rest => c ++ '/' :: intercalateSlash rest

/-- Component processing of `filepath.Clean` (Unix): drop empty and `.`
components; `..` pops a previous component when possible, is kept when the
path is relative and nothing can be popped, and is dropped at the root. -/
def cleanComps (rooted : Bool) (acc : List (List Char)) :
    List (List Char) → List (List Char)
  | [] => acc
  | comp :: rest =>
    if comp = [] ∨ comp = ['.'] then cleanComps rooted acc rest
    else if comp = ['.', '.'] then
      if acc ≠ [] ∧ acc.getLast? ≠ some ['.', '.'] then
        cleanComps rooted acc.dropLast rest
      else if rooted then cleanComps rooted acc rest
      else cleanComps rooted (acc ++ [comp]) rest
    else cleanComps rooted (acc ++ [comp]) rest

/-- `filepath.Clean` on a Unix path. -/
def filepathClean (path : List Char) : List Char :=
  if path = [] then ['.']
  else
    let rooted := path.head? = some '/'
    let comps := cleanComps rooted [] (splitOnSlash path)
    let out := (if rooted then ['/'] else []) ++ intercalateSlash comps
    if out = [] then ['.'] else out

/-- `filepath.Join`: drop leading empty elements, join the rest with the
separator, then `Clean`; all-empty input yields the empty string. -/
def filepathJoin (elems : List (List Char)) : List Char :=
  match elems.dropWhile (fun e => e.isEmpty) with
  | [] => []
  | rest => filepathClean (intercalateSlash rest)

/-- `filepath.Dir`: everything up to and including the final separator,
cleaned; `.` when there is no separator. -/
def filepathDir (path : List Char) : List Char :=
  match (path.reverse.dropWhile (fun c => c ≠ '/')).reverse with
  | [] => ['.']
  | upto => filepathClean upto

/-- `archive.stripPathComponents`: remove `count` leading components of the
cleaned path; empty result when nothing remains. -/
def stripPathComponents (path : List Char) (count : Int) : List Char :=
  if count ≤ 0 then path
  else
    let components := splitOnSlash (filepathClean path)
    if (components.length : Int) ≤ count then []
    else filepathJoin (components.drop count.toNat)

/-- One pattern test of `archive.shouldExtract`: exact match, match under a
directory-style pattern ending in a separator, or nesting below the pattern. -/
def patternKeeps (strippedPath pattern0 : List Char) : Bool :=
  let p := filepathClean pattern0
  if strippedPath = p then true
  else if p.getLast? = some '/' then p.isPrefixOf strippedPath
  else (p ++ ['/']).isPrefixOf strippedPath

/-- `archive.shouldExtract`: strip, skip on an empty result, keep everything
when no filters are given, otherwise keep on the first matching filter. -/
def shouldExtract (originalPath : List Char) (stripComponents : Int)
    (extractPaths : List (List Char)) : List Char × Bool :=
  let strippedPath := stripPathComponents originalPath stripComponents
  if strippedPath = [] then ([], false)
  else if extractPaths = [] then (strippedPath, true)
  else if extractPaths.any (fun pat => patternKeeps strippedPath pat) then
    (strippedPath, true)
  else ([], false)

/-- `archive.secureJoin`: join onto the destination directory and reject any
result that leaves the cleaned destination directory. -/
def secureJoin (destDir targetPath : List Char) : Except String (List Char) :=
  let joinedPath := filepathJoin [destDir, targetPath]
  if ¬ ((filepathClean destDir ++ ['/']).isPrefixOf joinedPath)
      ∧ joinedPath ≠ filepathClean destDir then
    .error ("invalid path in archive: " ++ String.mk targetPath
      ++ " attempts to escape destination directory")
  else
    .ok joinedPath

/-- The extractor variants of `internal/archive`. -/
inductive ExtractorKind where
  | zip
  | tarGz
deriving DecidableEq, Repr

/-- `archive.GetExtractor`: classify by lower-cased file-name suffix. -/
def getExtractor (filePath : List Char) : Except String ExtractorKind :=
  let lowerPath := filePath.map Char.toLower
  if (".zip".data).isSuffixOf lowerPath then .ok .zip
  else if (".tar.gz".data).isSuffixOf lowerPath ∨ (".tgz".data).isSuffixOf lowerPath then
    .ok .tarGz
  else .error ("unsupported archive format for file: " ++ String.mk filePath)

/-- Name produced by `os.CreateTemp("", "dltofu-<fileID>-*.tmp")` in
`runDownload`: the `*` of the pattern is replaced by a random string. -/
def tempFileName (fileID : String) (rand : List Char) : List Char :=
  "dltofu-".data ++ fileID.data ++ "-".data ++ rand ++ ".tmp".data

/-! ### Zip extraction (`internal/archive/zip.go`) over an explicit file system -/

/-- File-system model: existing paths with a directory flag (`os.Stat` view). -/
def FS : Type := List (List Char × Bool)

/-- A zip archive entry: recorded name and directory flag (modes and byte
content do not influence any studied property). -/
structure ZipEntry where
  name : List Char
  isDir : Bool
deriving DecidableEq, Repr

/-- `os.MkdirAll` at the model level: record the path as a directory when
absent (intermediate parents are not observed by any studied property). -/
def mkdirAllFS (fs : FS) (p : List Char) : FS :=
  match lookupA p fs with
  | some _ => fs
  | none => insertA p true fs

/-- `archive.checkOverwrite`: missing destination may proceed; an existing one
proceeds only under `force`, and then only when the file/directory kind
matches. -/
def checkOverwrite (fs : FS) (destPath : List Char) (isDir force : Bool) :
    Except String Bool :=
  match lookupA destPath fs with
  | none => .ok true
  | some statIsDir =>
    if force then
      if statIsDir ≠ isDir then .error "cannot overwrite path: type mismatch"
      else .ok true
    else .ok false

/-- `archive.writeFile`: without `force` an existing destination is an
already-exists error; otherwise create parent directories and write.
The Bool error flag distinguishes the already-exists error recognised by the
caller. -/
def writeFileFS (fs : FS) (destPath : List Char) (force : Bool) : Except Bool FS :=
  if force = false ∧ (lookupA destPath fs).isSome then .error true
  else .ok (insertA destPath false (mkdirAllFS fs (filepathDir destPath)))

/-- Body of the `ZipExtractor.Extract` loop for one entry: filter via
`shouldExtract`, guard via `secureJoin` (skip on violation), then create a
directory or write a file subject to `checkOverwrite`. -/
def zipExtractEntry (destDir : List Char) (strip : Int) (extractPaths : List (List Char))
    (force : Bool) (fs : FS) (e : ZipEntry) : Except String FS :=
  let res := shouldExtract e.name strip extractPaths
  if res.2 = false then .ok fs
  else
    match secureJoin destDir res.1 with
    | .error _ => .ok fs
    | .ok finalDestPath =>
      if e.isDir then
        match checkOverwrite fs finalDestPath true force with
        | .error m => .error m
        | .ok false => .ok fs
        | .ok true => .ok (mkdirAllFS fs finalDestPath)
      else
        match checkOverwrite fs finalDestPath false force with
        | .error m => .error m
        | .ok false => .ok fs
        | .ok true =>
          let fs1 := mkdirAllFS fs (filepathDir finalDestPath)
          match writeFileFS fs1 finalDestPath force with
          | .error true => .ok fs1
          | .error false => .error "failed to check destination file"
          | .ok fs2 => .ok fs2

/-- The `ZipExtractor.Extract` loop over all entries, stopping on a hard error. -/
def zipExtractLoop (destDir : List Char) (strip : Int) (extractPaths : List (List Char))
    (force : Bool) : FS → List ZipEntry → Except String FS
  | fs, [] => .ok fs
  | fs, e :: rest =>
    match zipExtractEntry destDir strip extractPaths force fs e with
    | .error m => .error m
    | .ok fs1 => zipExtractLoop destDir strip extractPaths force fs1 rest

/-- `ZipExtractor.Extract`: ensure the destination directory, then process the
entries in order. -/
def zipExtract (destDir : List Char) (strip : Int) (extractPaths : List (List Char))
    (force : Bool) (fs : FS) (entries : List ZipEntry) : Except String FS :=
  zipExtractLoop destDir strip extractPaths force (mkdirAllFS fs destDir) entries

/-- Is an `Except` value an error? -/
def exceptIsError {ε α : Type} : Except ε α → Bool
  | .error _ => true
  | .ok _ => false

/-! ### Digest textual form and lock-file persistence (`hash.go`, `lock.go`) -/

/-- One character of `encoding/hex`: the hex digit table. -/
def hexDigitChar (n : Nat) : Char :=
  ("0123456789abcdef".data).getD n 'x'

/-- Value of one hex digit; `none` on a non-digit. -/
def hexDigitVal (c : Char) : Option Nat :=
  if '0' ≤ c ∧ c ≤ '9' then some (c.toNat - '0'.toNat)
  else if 'a' ≤ c ∧ c ≤ 'f' then some (c.toNat - 'a'.toNat + 10)
  else if 'A' ≤ c ∧ c ≤ 'F' then some (c.toNat - 'A'.toNat + 10)
  else none

/-- `hex.EncodeToString`: two lower-case digits per byte. -/
def hexEncode : List Nat → List Char
  | [] => []
  | b :: rest => hexDigitChar (b / 16) :: hexDigitChar (b % 16) :: hexEncode rest

/-- `hex.DecodeString`: parse digit pairs; odd length or a bad digit fails. -/
def hexDecode : List Char → Except String (List Nat)
  | [] => .ok []
  | [_] => .error "odd length hex string"
  | c1 :: c2 :: rest =>
    match hexDigitVal c1, hexDigitVal c2 with
    | some hi, some lo =>
      match hexDecode rest with
      | .ok bs => .ok ((hi * 16 + lo) :: bs)
      | .error e => .error e
    | _, _ => .error "invalid hex byte"

/-- `strings.SplitN(s, ":", 2)` seen as the split at the first colon. -/
def splitFirstColon : List Char → Option (List Char × List Char)
  | [] => none
  | c :: rest =>
    if c = ':' then some ([], rest)
    else
      match splitFirstColon rest with
      | none => none
      | some (before, after) => some (c :: before, after)

/-- `hash.GetHasher` succeeds exactly on the two supported algorithms. -/
def getHasherOk (algo : List Char) : Bool :=
  algo = "sha256".data ∨ algo = "sha512".data

/-- `hash.ParseHash`: split at the first colon, demand both parts non-empty,
and demand a supported algorithm. -/
def parseHash (formattedHash : List Char) : Except String (List Char × List Char) :=
  match splitFirstColon formattedHash with
  | none => .error "invalid hash format"
  | some (algo, value) =>
    if algo = [] ∨ value = [] then .error "invalid hash format"
    else if getHasherOk algo then .ok (algo, value)
    else .error "invalid hash format: unknown algorithm"

/-- `Hash.String`: `algorithm:hex-digest`. -/
def hashString (h : Hash) : List Char :=
  h.algorithm ++ ':' :: hexEncode h.hashValue

/-- `Hash.MarshalJSON`: the formatted hash wrapped in double quotes. -/
def marshalHashJson (h : Hash) : List Char :=
  '"' :: hashString h ++ ['"']

/-- `Hash.UnmarshalJSON`: demand surrounding quotes, strip them, parse the
`algorithm:hex` form and decode the hex digits. -/
def unmarshalHashJson (data : List Char) : Except String Hash :=
  if data.length < 2 then .error "invalid hash JSON data"
  else if data.head? ≠ some '"' ∨ data.getLast? ≠ some '"' then
    .error "invalid hash JSON format"
  else
    match parseHash ((data.drop 1).dropLast) with
    | .error e => .error e
    | .ok (algorithm, hashValue) =>
      match hexDecode hashValue with
      | .error e => .error e
      | .ok hashBytes => .ok { algorithm := algorithm, hashValue := hashBytes }

/-- The JSON document written by `LockFile.Save` / read by `LoadLockFile`,
kept at tree level: the version number and, per file id and url, the raw
bytes the digest was serialised to. -/
structure LockJson where
  version : Int
  files : List (String × List (String × List Char))
deriving DecidableEq, Repr

/-- `LockFile.Save` serialisation (`json.MarshalIndent` with
`Hash.MarshalJSON` at the leaves). -/
def marshalLockFile (lf : LockFile) : LockJson :=
  { version := lf.version
    files := lf.files.map fun fu =>
      (fu.1, fu.2.map fun uh => (uh.1, marshalHashJson uh.2)) }

/-- Decode all url → digest leaves of one file entry. -/
def unmarshalURLs : List (String × List Char) → Except String (List (String × Hash))
  | [] => .ok []
  | (u, data) :: rest =>
    match unmarshalHashJson data with
    | .error e => .error e
    | .ok h =>
      match unmarshalURLs rest with
      | .error e => .error e
      | .ok rest1 => .ok ((u, h) :: rest1)

/-- Decode the nested file map. -/
def unmarshalFiles :
    List (String × List (String × List Char)) →
      Except String (List (String × List (String × Hash)))
  | [] => .ok []
  | (f, urls) :: rest =>
    match unmarshalURLs urls with
    | .error e => .error e
    | .ok urls1 =>
      match unmarshalFiles rest with
      | .error e => .error e
      | .ok rest1 => .ok ((f, urls1) :: rest1)

/-- `LoadLockFile` after a successful file read: unmarshal (failing on any bad
digest), then reject an unsupported version. -/
def loadLockJson (j : LockJson) : Except String LockFile :=
  match unmarshalFiles j.files with
  | .error e => .error e
  | .ok files =>
    if j.version ≠ lockFileVersion then .error "unsupported lock file version"
    else .ok { version := j.version, files := files }

/-- Well-formedness of one digest as produced by this program: a supported
algorithm and a non-empty byte sequence of genuine bytes. -/
def hashWF (h : Hash) : Bool :=
  getHasherOk h.algorithm ∧ h.hashValue ≠ [] ∧ h.hashValue.all fun b => b < 256

/-- Well-formedness of every digest recorded in a store. -/
def storeWF (lf : LockFile) : Bool :=
  lf.files.all fun fu => fu.2.all fun uh => hashWF uh.2

/-! ### The `lock` command (`runLock`) -/

/-- What the lock-file path holds on disk before a run. -/
inductive DiskState where
  | absent
  | malformed
  | content (j : LockJson)

/-- Classified result of `lock.LoadLockFile`: the missing-file error, any
read/unmarshal/version error, or the loaded store. -/
inductive LoadOutcome where
  | notFound
  | corrupt (msg : String)
  | loaded (lf : LockFile)
deriving DecidableEq

/-- `lock.LoadLockFile` over the disk model: a missing file is the
`lock file not found` error, unreadable JSON is an unmarshal error, and
otherwise the document is decoded and version-checked. -/
def loadLockFileModel : DiskState → LoadOutcome
  | .absent => .notFound
  | .malformed => .corrupt "failed to unmarshal lock file"
  | .content j =>
    match loadLockJson j with
    | .error e => .corrupt e
    | .ok lf => .loaded lf

/-- The opening of `runLock`: load the existing lock file; the not-found error
is replaced by a fresh empty store, and any other load error is logged and
likewise replaced by a fresh empty store — the run proceeds in every case.
The Bool records whether `runLock` returned (aborted) at this step. -/
def runLockLoadExisting (d : DiskState) : LockFile × Bool :=
  match loadLockFileModel d with
  | .notFound => (newLockFile, false)
  | .corrupt _ => (newLockFile, false)
  | .loaded lf => (lf, false)

/-- The per-target work of `runLock` folded sequentially: each resolved
target's computed digest is committed into the fresh store via `SetHash`;
the first error aborts (errgroup fail-fast). A target is the triple
(file id, resolved url, digest of the fetched upstream bytes). -/
def runLockTargets (nl : LockFile) :
    List (String × String × Hash) → Except String LockFile
  | [] => .ok nl
  | (f, u, h) :: rest =>
    match setHash nl f u h with
    | (nl1, none) => runLockTargets nl1 rest
    | (_, some e) => .error e

/-- The active set accumulated by `runLock` (`activeFiles[fileID][url] = {}`). -/
def activeFromTargets : List (String × String × Hash) → List (String × List String)
  | [] => []
  | (f, u, _) :: rest =>
    let active := activeFromTargets rest
    match lookupA f active with
    | none => insertA f [u] active
    | some urls => insertA f (if u ∈ urls then urls else u :: urls) active

/-- `reflect.DeepEqual` on the nested maps: order-insensitive deep equality. -/
def urlsDeepEqual (a b : List (String × Hash)) : Bool :=
  (a.all fun p => lookupA p.1 b = some p.2) ∧ (b.all fun p => lookupA p.1 a = some p.2)

/-- `reflect.DeepEqual` on the outer maps. -/
def filesDeepEqual (a b : List (String × List (String × Hash))) : Bool :=
  (a.all fun p => match lookupA p.1 b with
    | some v => urlsDeepEqual p.2 v
    | none => false)
  ∧ (b.all fun p => match lookupA p.1 a with
    | some v => urlsDeepEqual v p.2
    | none => false)

/-- Result of a lock run: failed, up to date (nothing written), or saved. -/
inductive LockOutcome where
  | failed (msg : String)
  | noChange
  | saved (lf : LockFile)
deriving DecidableEq

/-- `runLock` after config loading: start from a fresh store, commit every
target's digest, prune to the active set, then write the new store only when
it deep-differs from the previously persisted one. -/
def runLockModel (existing : LockFile) (targets : List (String × String × Hash)) :
    LockOutcome :=
  match runLockTargets newLockFile targets with
  | .error e => .failed e
  | .ok nl =>
    let nl1 := prune nl (activeFromTargets targets)
    if filesDeepEqual existing.files nl1.files then .noChange
    else .saved nl1

/-! ### The `download` command (`runDownload`), one file definition -/

/-- Outcome of processing one file definition in `runDownload`. -/
inductive FileOutcome where
  | skippedExisting
  | downloaded
  | extracted
  | failed (msg : String)
deriving DecidableEq

/-- Observable effects of processing one file definition. -/
structure FileEffects where
  fetches : Nat
  destWritten : Bool
  extractorRan : Bool
deriving DecidableEq, Repr

/-- Per-file body of `runDownload` after URL resolution, for the current
platform: look up the pinned digest; for a non-archive destination that
already exists without `--force`, skip before any network work; otherwise
fetch (`upstream` is the digest of the fetched bytes, `none` a transport
failure) and verify; an archive is then classified by its temporary file
name `dltofu-<fileID>-<rand>.tmp` and extracted only when classification
succeeds. -/
def processFile (lf : LockFile) (fileID url : String)
    (isArchive force destExists : Bool) (upstream : Option Hash) (rand : List Char) :
    FileOutcome × FileEffects :=
  match getHash lf fileID url with
  | .error e => (.failed e, ⟨0, false, false⟩)
  | .ok expectedHash =>
    if isArchive = false ∧ destExists = true ∧ force = false then
      (.skippedExisting, ⟨0, false, false⟩)
    else
      match upstream with
      | none => (.failed "transport error", ⟨1, false, false⟩)
      | some actualHash =>
        if actualHash.equal expectedHash = false then
          (.failed "hash mismatch", ⟨1, false, false⟩)
        else if isArchive then
          match getExtractor (tempFileName fileID rand) with
          | .error e => (.failed e, ⟨1, false, false⟩)
          | .ok _ => (.extracted, ⟨1, true, true⟩)
        else
          (.downloaded, ⟨1, true, false⟩)

/-! ### Concrete digests, stores and active sets used by witnesses -/

def exHashA : Hash := ⟨"sha256".data, [0]⟩

def exHashB : Hash := ⟨"sha256".data, [1]⟩

def exLock : LockFile := { version := 1, files := [("f", [("u", exHashA)])] }

def exLock2 : LockFile :=
  { version := 1
    files := [("f", [("u", exHashA), ("v", exHashB)]), ("h", [("u", exHashA)])] }

def exActive : List (String × List String) := [("f", ["u"]), ("g", ["w"])]

end Dltofu


namespace Dltofu

/-! ### Association-list lemmas -/

theorem lookupA_insertA {κ α : Type} [DecidableEq κ] (k f : κ) (v : α) (l : List (κ × α)) :
    lookupA f (insertA k v l) = if k = f then some v else lookupA f l := by
  induction l with
  | nil => simp only [insertA, lookupA]
  | cons p rest ih =>
    obtain ⟨k', v'⟩ := p
    simp only [insertA]
    by_cases hk : k' = k
    · rw [if_pos hk]
      subst hk
      by_cases hf : k' = f <;> simp [lookupA, hf]
    · rw [if_neg hk]
      by_cases hf : k' = f
      · have hkf : ¬ (k = f) := fun hx => hk (hf.trans hx.symm)
        simp [lookupA, hf, hkf]
      · simp [lookupA, hf, ih]

theorem insertA_lookup_self {κ α : Type} [DecidableEq κ] (k : κ) (v : α) (l : List (κ × α))
    (h : lookupA k l = some v) : insertA k v l = l := by
  induction l with
  | nil => simp [lookupA] at h
  | cons p rest ih =>
    obtain ⟨k', v'⟩ := p
    simp only [lookupA] at h
    simp only [insertA]
    by_cases hk : k' = k
    · rw [if_pos hk] at h
      injection h with h2
      rw [if_pos hk, h2]
    · rw [if_neg hk] at h
      rw [if_neg hk, ih h]

theorem lookupA_eq_none_of_not_mem {κ α : Type} [DecidableEq κ] (f : κ) (l : List (κ × α))
    (h : f ∉ l.map Prod.fst) : lookupA f l = none := by
  induction l with
  | nil => simp [lookupA]
  | cons p rest ih =>
    obtain ⟨k', v'⟩ := p
    simp only [List.map_cons, List.mem_cons] at h
    push_neg at h
    simp only [lookupA]
    rw [if_neg (fun hx : k' = f => h.1 hx.symm)]
    exact ih h.2

theorem mem_of_mem_insertA {κ α : Type} [DecidableEq κ] (k : κ) (v : α) (p : κ × α)
    (l : List (κ × α)) (h : p ∈ insertA k v l) : p = (k, v) ∨ p ∈ l := by
  induction l with
  | nil =>
    simp only [insertA, List.mem_singleton] at h
    exact Or.inl h
  | cons q rest ih =>
    obtain ⟨k', v'⟩ := q
    simp only [insertA] at h
    by_cases hk : k' = k
    · rw [if_pos hk] at h
      rcases List.mem_cons.mp h with h1 | h1
      · exact Or.inl (by rw [h1, hk])
      · exact Or.inr (List.mem_cons_of_mem _ h1)
    · rw [if_neg hk] at h
      rcases List.mem_cons.mp h with h1 | h1
      · exact Or.inr (by rw [h1]; exact List.mem_cons_self _ _)
      · rcases ih h1 with h2 | h2
        · exact Or.inl h2
        · exact Or.inr (List.mem_cons_of_mem _ h2)

theorem mem_of_lookupA {κ α : Type} [DecidableEq κ] (f : κ) (v : α) (l : List (κ × α))
    (h : lookupA f l = some v) : (f, v) ∈ l := by
  induction l with
  | nil => simp [lookupA] at h
  | cons p rest ih =>
    obtain ⟨k', v'⟩ := p
    simp only [lookupA] at h
    by_cases hk : k' = f
    · rw [if_pos hk] at h
      injection h with h2
      subst hk
      rw [← h2]
      exact List.mem_cons_self _ _
    · rw [if_neg hk] at h
      exact List.mem_cons_of_mem _ (ih h)

/-! ### Digest equality -/

theorem zip_all_beq_iff : ∀ (l1 l2 : List Nat), l1.length = l2.length →
    ((((l1.zip l2).all fun p => p.1 == p.2) = true) ↔ l1 = l2) := by
  intro l1
  induction l1 with
  | nil => intro l2 h; cases l2 <;> simp_all
  | cons a rest ih =>
    intro l2 h
    cases l2 with
    | nil => simp at h
    | cons b rest2 =>
      simp only [List.length_cons, Nat.succ.injEq] at h
      simp only [List.zip_cons_cons, List.all_cons, Bool.and_eq_true, beq_iff_eq,
        List.cons.injEq]
      rw [ih rest2 h]

theorem Hash.equal_iff (h1 h2 : Hash) : (h1.equal h2 = true) ↔ h1 = h2 := by
  obtain ⟨a1, v1⟩ := h1
  obtain ⟨a2, v2⟩ := h2
  simp only [Hash.equal, Hash.mk.injEq]
  by_cases ha : a1 = a2
  · by_cases hl : v1.length = v2.length
    · rw [if_neg (not_not_intro ha), if_neg (not_not_intro hl)]
      rw [zip_all_beq_iff v1 v2 hl]
      simp [ha]
    · rw [if_neg (not_not_intro ha), if_pos hl]
      constructor
      · intro h; simp at h
      · intro h; exact absurd (by rw [h.2]) hl
  · rw [if_pos ha]
    constructor
    · intro h; simp at h
    · intro h; exact absurd h.1 ha

theorem Hash.equal_self (h : Hash) : h.equal h = true := (Hash.equal_iff h h).mpr rfl

/-! ### C1: the TOFU write rule of `SetHash` -/

/-- C1: for every store and key, `SetHash` with a digest equal to the stored
one succeeds and leaves the store unchanged; with a differing digest it fails
with the hash-inconsistency error and leaves the entire store unchanged; for
an absent key it records the digest. -/
theorem setHash_tofu (lf : LockFile) (fileID url : String) (newHash : Hash) :
    (∀ d, lookup2 lf fileID url = some d → d.equal newHash = true →
      (setHash lf fileID url newHash).2 = none
        ∧ (setHash lf fileID url newHash).1 = lf)
    ∧ (∀ d, lookup2 lf fileID url = some d → d.equal newHash = false →
      (setHash lf fileID url newHash).2.isSome = true
        ∧ (setHash lf fileID url newHash).1 = lf)
    ∧ (lookup2 lf fileID url = none →
      (setHash lf fileID url newHash).2 = none
        ∧ lookup2 (setHash lf fileID url newHash).1 fileID url = some newHash) := by
  refine ⟨?_, ?_, ?_⟩
  · intro d hd he
    rcases hfl : lookupA fileID lf.files with _ | urls
    · simp [lookup2, hfl] at hd
    · simp only [lookup2, hfl] at hd
      have hd2 : d = newHash := (Hash.equal_iff d newHash).mp he
      have hurls : insertA url newHash urls = urls := by
        rw [← hd2]
        exact insertA_lookup_self _ _ _ hd
      have hfiles : insertA fileID urls lf.files = lf.files :=
        insertA_lookup_self _ _ _ hfl
      refine ⟨by simp [setHash, hfl, hd, he], ?_⟩
      have hstep : (setHash lf fileID url newHash).1
          = { lf with files := insertA fileID (insertA url newHash urls) lf.files } := by
        simp [setHash, hfl, hd, he]
      rw [hstep, hurls, hfiles]
  · intro d hd he
    rcases hfl : lookupA fileID lf.files with _ | urls
    · simp [lookup2, hfl] at hd
    · simp only [lookup2, hfl] at hd
      simp [setHash, hfl, hd, he]
  · intro hd
    rcases hfl : lookupA fileID lf.files with _ | urls
    · simp only [setHash, hfl]
      simp [lookup2, lookupA_insertA, lookupA]
    · simp only [lookup2, hfl] at hd
      simp [setHash, hfl, hd, lookup2, lookupA_insertA]

theorem setHash_tofu_witness :
    lookup2 exLock "f" "u" = some exHashA
    ∧ exHashA.equal exHashB = false
    ∧ (setHash exLock "f" "u" exHashB).2.isSome = true
    ∧ (setHash exLock "f" "u" exHashB).1 = exLock := by
  refine ⟨by decide, by decide, ?_⟩
  exact (setHash_tofu exLock "f" "u" exHashB).2.1 exHashA (by decide) (by decide)

/-! ### C5 and C10: `Prune` -/

theorem lookupA_pruneURLs (ex : List (String × Hash)) (aurls : List String) (u : String) :
    lookupA u (pruneURLs ex aurls) = if u ∈ aurls then lookupA u ex else none := by
  induction ex with
  | nil => simp [pruneURLs, lookupA]
  | cons p rest ih =>
    obtain ⟨k, h⟩ := p
    by_cases hmem : k ∈ aurls
    · simp only [pruneURLs, List.filter_cons] at *
      rw [if_pos (by simpa using hmem)]
      by_cases hk : k = u
      · subst hk
        simp [lookupA, hmem]
      · simp only [lookupA]
        rw [if_neg hk, ih, if_neg hk]
    · simp only [pruneURLs, List.filter_cons] at *
      rw [if_neg (by simpa using hmem)]
      rw [ih]
      by_cases hk : k = u
      · subst hk
        simp [lookupA, hmem]
      · simp only [lookupA]
        rw [if_neg hk]

theorem pruneFiles_none_key (files : List (String × List (String × Hash)))
    (active : List (String × List String)) (f : String)
    (h : lookupA f active = none) : lookupA f (pruneFiles files active) = none := by
  induction active with
  | nil => simp [pruneFiles, lookupA]
  | cons p rest ih =>
    obtain ⟨g, aurls⟩ := p
    simp only [lookupA] at h
    by_cases hg : g = f
    · rw [if_pos hg] at h
      cases h
    · rw [if_neg hg] at h
      rcases hfg : lookupA g files with _ | ex
      · simp only [pruneFiles, hfg]
        exact ih h
      · by_cases hlen : 0 < (pruneURLs ex aurls).length
        · simp only [pruneFiles, hfg, if_pos hlen]
          rw [lookupA_insertA, if_neg hg]
          exact ih h
        · simp only [pruneFiles, hfg, if_neg hlen]
          exact ih h

theorem lookupA_pruneFiles (files : List (String × List (String × Hash)))
    (active : List (String × List String)) (f : String)
    (hnd : (active.map Prod.fst).Nodup) :
    lookupA f (pruneFiles files active)
      = match lookupA f active with
        | none => none
        | some activeURLs =>
          match lookupA f files with
          | none => none
          | some ex =>
            if 0 < (pruneURLs ex activeURLs).length then some (pruneURLs ex activeURLs)
            else none := by
  induction active with
  | nil => simp [pruneFiles, lookupA]
  | cons p rest ih =>
    obtain ⟨g, aurls⟩ := p
    simp only [List.map_cons, List.nodup_cons] at hnd
    obtain ⟨hg_not, hnd_rest⟩ := hnd
    by_cases hg : g = f
    · subst hg
      have hrest_none : lookupA g rest = none :=
        lookupA_eq_none_of_not_mem g rest hg_not
      rcases hfg : lookupA g files with _ | ex
      · simp [pruneFiles, hfg, lookupA, pruneFiles_none_key files rest g hrest_none]
      · by_cases hlen : 0 < (pruneURLs ex aurls).length
        · simp [pruneFiles, hfg, lookupA, hlen, lookupA_insertA]
        · simp [pruneFiles, hfg, lookupA, hlen,
            pruneFiles_none_key files rest g hrest_none]
    · rcases hfg : lookupA g files with _ | ex
      · simp only [pruneFiles, hfg, lookupA, if_neg hg]
        exact ih hnd_rest
      · by_cases hlen : 0 < (pruneURLs ex aurls).length
        · simp only [pruneFiles, hfg, lookupA, if_neg hg, if_pos hlen]
          rw [lookupA_insertA, if_neg hg]
          exact ih hnd_rest
        · simp only [pruneFiles, hfg, lookupA, if_neg hg, if_neg hlen]
          exact ih hnd_rest

/-- C5: after `Prune(activeSet)` the store holds exactly the previously stored
entries whose (fileID, url) key is in the active set; everything else,
including whole file ids absent from the active set, is gone. -/
theorem prune_exact (lf : LockFile) (active : List (String × List String))
    (hnd : (active.map Prod.fst).Nodup) (fileID url : String) :
    lookup2 (prune lf active) fileID url
      = if memActive active fileID url then lookup2 lf fileID url else none := by
  simp only [lookup2, prune, memActive]
  rw [lookupA_pruneFiles lf.files active fileID hnd]
  rcases hact : lookupA fileID active with _ | aurls
  · simp
  · rcases hfile : lookupA fileID lf.files with _ | ex
    · by_cases hmem : url ∈ aurls <;> simp [hmem]
    · by_cases hlen : 0 < (pruneURLs ex aurls).length
      · by_cases hmem : url ∈ aurls <;>
          simp [hlen, hmem, lookupA_pruneURLs]
      · have hempty : pruneURLs ex aurls = [] := by
          rcases hres : pruneURLs ex aurls with _ | ⟨q, qs⟩
          · rfl
          · rw [hres] at hlen
            exact absurd (by simp) hlen
        by_cases hmem : url ∈ aurls
        · have h2 := lookupA_pruneURLs ex aurls url
          rw [hempty, if_pos hmem] at h2
          simp only [lookupA] at h2
          simp [hlen, hmem, ← h2]
        · simp [hlen, hmem]

theorem prune_exact_witness :
    ((exActive.map Prod.fst).Nodup)
    ∧ lookup2 (prune exLock2 exActive) "f" "u"
      = if memActive exActive "f" "u" then lookup2 exLock2 "f" "u" else none := by
  refine ⟨by decide, ?_⟩
  exact prune_exact exLock2 exActive (by decide) "f" "u"

theorem pruneFiles_values_ne_nil (files : List (String × List (String × Hash)))
    (active : List (String × List String)) (p : String × List (String × Hash))
    (hp : p ∈ pruneFiles files active) : p.2 ≠ [] := by
  induction active with
  | nil => simp [pruneFiles] at hp
  | cons q rest ih =>
    obtain ⟨g, aurls⟩ := q
    rcases hfg : lookupA g files with _ | ex
    · simp only [pruneFiles, hfg] at hp
      exact ih hp
    · by_cases hlen : 0 < (pruneURLs ex aurls).length
      · simp only [pruneFiles, hfg, if_pos hlen] at hp
        rcases mem_of_mem_insertA _ _ _ _ hp with h1 | h1
        · subst h1
          intro hnil
          have hnil2 : pruneURLs ex aurls = [] := hnil
          rw [hnil2] at hlen
          simp at hlen
        · exact ih h1
      · simp only [pruneFiles, hfg, if_neg hlen] at hp
        exact ih hp

/-- C10: `Prune` never leaves a file id whose per-url map became empty: every
file id remaining in the pruned store maps to a non-empty url map. -/
theorem prune_no_empty_fileID (lf : LockFile) (active : List (String × List String))
    (fileID : String) (urls : List (String × Hash))
    (h : lookupA fileID (prune lf active).files = some urls) : urls ≠ [] := by
  have hmem : (fileID, urls) ∈ pruneFiles lf.files active :=
    mem_of_lookupA _ _ _ h
  exact pruneFiles_values_ne_nil lf.files active (fileID, urls) hmem

theorem prune_no_empty_fileID_witness :
    lookupA "f" (prune exLock exActive).files = some [("u", exHashA)]
    ∧ ([("u", exHashA)] : List (String × Hash)) ≠ [] := by
  refine ⟨by decide, ?_⟩
  exact prune_no_empty_fileID exLock exActive "f" [("u", exHashA)] (by decide)

/-! ### C8: path stripping examples -/

/-- C8: stripping one leading component of `a/b/c.txt` yields `b/c.txt`;
stripping three yields the empty path, and such an entry is skipped for any
extract-path filter. -/
theorem strip_components_spec :
    stripPathComponents "a/b/c.txt".data 1 = "b/c.txt".data
    ∧ stripPathComponents "a/b/c.txt".data 3 = []
    ∧ ∀ extractPaths, shouldExtract "a/b/c.txt".data 3 extractPaths = ([], false) := by
  refine ⟨by decide, by decide, fun extractPaths => ?_⟩
  have h3 : stripPathComponents "a/b/c.txt".data 3 = [] := by decide
  simp [shouldExtract, h3]

/-! ### C3: unsafe archive entries are skipped, extraction continues -/

/-- C3: a zip entry that passes the strip/filter stage but whose stripped path
escapes the destination directory (rejected by `secureJoin`) changes nothing
on disk, and the remaining entries are processed exactly as if the unsafe
entry were absent. -/
theorem zip_unsafe_entry_skipped (destDir : List Char) (strip : Int)
    (extractPaths : List (List Char)) (force : Bool) (fs : FS) (e : ZipEntry)
    (rest : List ZipEntry)
    (hkeep : (shouldExtract e.name strip extractPaths).2 = true)
    (hesc : exceptIsError (secureJoin destDir (shouldExtract e.name strip extractPaths).1)
      = true) :
    zipExtractLoop destDir strip extractPaths force fs (e :: rest)
      = zipExtractLoop destDir strip extractPaths force fs rest := by
  have hentry : zipExtractEntry destDir strip extractPaths force fs e = .ok fs := by
    rcases hsec : secureJoin destDir (shouldExtract e.name strip extractPaths).1 with m | v
    · simp [zipExtractEntry, hkeep, hsec]
    · rw [hsec] at hesc
      simp [exceptIsError] at hesc
  simp [zipExtractLoop, hentry]

theorem zip_unsafe_entry_skipped_witness :
    (shouldExtract "../outside.txt".data 0 []).2 = true
    ∧ exceptIsError (secureJoin "/dest".data (shouldExtract "../outside.txt".data 0 []).1)
        = true
    ∧ zipExtractLoop "/dest".data 0 [] false [] [⟨"../outside.txt".data, false⟩]
        = zipExtractLoop "/dest".data 0 [] false [] [] :=
  ⟨by decide, by decide,
    zip_unsafe_entry_skipped "/dest".data 0 [] false [] ⟨"../outside.txt".data, false⟩ []
      (by decide) (by decide)⟩

/-! ### C2: re-running `lock` against changed upstream content -/

/-- C2 (documents the divergence): re-running `lock` over an unchanged
upstream writes nothing; but after the upstream digest for the single pinned
url changes from `exHashA` to `exHashB`, `runLock` reports no
hash-inconsistency and silently saves the re-pinned store, because the fresh
store built by the run is never checked against the loaded one. -/
theorem relock_changed_upstream_overwrites :
    runLockModel exLock [("f", "u", exHashA)] = .noChange
    ∧ runLockModel exLock [("f", "u", exHashB)]
        = .saved { version := 1, files := [("f", [("u", exHashB)])] }
    ∧ exHashA.equal exHashB = false := by decide

/-! ### C7: loading the persisted store at the start of a lock run -/

/-- C7 counterexample: a malformed lock file, and one with an unsupported
version, do not abort the lock run — `runLock` proceeds (abort flag false)
even though `LoadLockFile` reported a non-not-found error. -/
theorem corrupt_lock_not_hard_error :
    (runLockLoadExisting .malformed).2 = false
    ∧ (runLockLoadExisting (.content { version := 2, files := [] })).2 = false
    ∧ loadLockFileModel .malformed ≠ .notFound
    ∧ exceptIsError (loadLockJson { version := 2, files := [] }) = true := by decide

/-- C7 amended: at the start of a lock run an absent lock file yields an empty
store, and a malformed or version-unsupported lock file is logged and likewise
replaced by an empty store; the run is never aborted at this step. -/
theorem lock_run_load_spec (d : DiskState) :
    (runLockLoadExisting d).2 = false
    ∧ (loadLockFileModel d = .notFound → (runLockLoadExisting d).1 = newLockFile)
    ∧ (∀ m, loadLockFileModel d = .corrupt m → (runLockLoadExisting d).1 = newLockFile)
    ∧ (∀ lf, loadLockFileModel d = .loaded lf → (runLockLoadExisting d).1 = lf) := by
  rcases hl : loadLockFileModel d with _ | m | lf <;> simp [runLockLoadExisting, hl]

theorem lock_run_load_spec_witness :
    loadLockFileModel .malformed = .corrupt "failed to unmarshal lock file"
    ∧ (runLockLoadExisting .malformed).1 = newLockFile
    ∧ (runLockLoadExisting .malformed).2 = false := by
  refine ⟨by decide, ?_, ?_⟩
  · exact (lock_run_load_spec .malformed).2.2.1 "failed to unmarshal lock file" (by decide)
  · exact (lock_run_load_spec .malformed).1

/-! ### C9: existing non-archive destinations are skipped without a fetch -/

/-- C9: with `--force` unset, a non-archive file whose destination already
exists is skipped as a success: no network fetch happens and the destination
is not written. -/
theorem download_skip_existing (lf : LockFile) (fileID url : String)
    (upstream : Option Hash) (rand : List Char) (d : Hash)
    (hfound : getHash lf fileID url = .ok d) :
    processFile lf fileID url false false true upstream rand
      = (.skippedExisting, ⟨0, false, false⟩) := by
  simp [processFile, hfound]

theorem download_skip_existing_witness :
    getHash exLock "f" "u" = .ok exHashA
    ∧ processFile exLock "f" "u" false false true (some exHashB) []
        = (.skippedExisting, ⟨0, false, false⟩) :=
  ⟨by decide, download_skip_existing exLock "f" "u" (some exHashB) [] exHashA (by decide)⟩

/-! ### C4: extractor classification runs on the temporary file name -/

theorem isSuffixOf_append_eq_false (s t l : List Char)
    (h1 : s.isSuffixOf t = false) (h2 : t.isSuffixOf s = false) :
    s.isSuffixOf (l ++ t) = false := by
  rw [Bool.eq_false_iff]
  intro hcon
  have hs : s <:+ l ++ t := List.isSuffixOf_iff_suffix.mp hcon
  have ht : t <:+ l ++ t := List.suffix_append l t
  rcases List.suffix_or_suffix_of_suffix hs ht with hc | hc
  · exact absurd (List.isSuffixOf_iff_suffix.mpr hc) (by simp [h1])
  · exact absurd (List.isSuffixOf_iff_suffix.mpr hc) (by simp [h2])

theorem getExtractor_dot_tmp (path : List Char) (z : List Char)
    (hz : path.map Char.toLower = z ++ ".tmp".data) :
    getExtractor path
      = .error ("unsupported archive format for file: " ++ String.mk path) := by
  simp [getExtractor, hz,
    isSuffixOf_append_eq_false ".zip".data ".tmp".data z (by decide) (by decide),
    isSuffixOf_append_eq_false ".tar.gz".data ".tmp".data z (by decide) (by decide),
    isSuffixOf_append_eq_false ".tgz".data ".tmp".data z (by decide) (by decide)]

theorem tempFileName_lower (fileID : String) (rand : List Char) :
    (tempFileName fileID rand).map Char.toLower
      = (("dltofu-".data ++ fileID.data ++ "-".data ++ rand).map Char.toLower)
        ++ ".tmp".data := by
  have htmp : (".tmp".data).map Char.toLower = ".tmp".data := by decide
  simp [tempFileName, List.map_append, htmp, List.append_assoc]

theorem getExtractor_tempFileName (fileID : String) (rand : List Char) :
    getExtractor (tempFileName fileID rand)
      = .error ("unsupported archive format for file: "
          ++ String.mk (tempFileName fileID rand)) :=
  getExtractor_dot_tmp _ _ (tempFileName_lower fileID rand)

/-- C4 (documents the divergence): in `runDownload`, an archive is downloaded
into a temporary file named `dltofu-<fileID>-<rand>.tmp`, and the extractor is
then selected from that temporary name; since the lowered name always ends in
`.tmp`, classification yields the unsupported-format error for every archive
— even after the fetched content matched the pinned digest — so the selected
extractor never unpacks anything. -/
theorem archive_extractor_never_selected (lf : LockFile) (fileID url : String)
    (force destExists : Bool) (rand : List Char) (d actual : Hash)
    (hfound : getHash lf fileID url = .ok d)
    (hmatch : actual.equal d = true) :
    processFile lf fileID url true force destExists (some actual) rand
      = (.failed ("unsupported archive format for file: "
          ++ String.mk (tempFileName fileID rand)), ⟨1, false, false⟩) := by
  simp [processFile, hfound, hmatch, getExtractor_tempFileName]

theorem archive_extractor_never_selected_witness :
    getHash exLock "f" "u" = .ok exHashA
    ∧ exHashA.equal exHashA = true
    ∧ processFile exLock "f" "u" true false false (some exHashA) "123456".data
        = (.failed ("unsupported archive format for file: "
            ++ String.mk (tempFileName "f" "123456".data)), ⟨1, false, false⟩) :=
  ⟨by decide, by decide,
    archive_extractor_never_selected exLock "f" "u" false false "123456".data
      exHashA exHashA (by decide) (by decide)⟩

/-! ### C6: `Save` then `Load` reproduces the store -/

theorem hexDigit_roundtrip : ∀ n, n < 16 → hexDigitVal (hexDigitChar n) = some n := by
  decide

theorem hexDecode_hexEncode : ∀ (bs : List Nat), (∀ b ∈ bs, b < 256) →
    hexDecode (hexEncode bs) = .ok bs := by
  intro bs
  induction bs with
  | nil => intro _; rfl
  | cons b rest ih =>
    intro hb
    have hblt : b < 256 := hb b (List.mem_cons_self _ _)
    have hhi : b / 16 < 16 := by omega
    have hlo : b % 16 < 16 := by omega
    simp only [hexEncode, hexDecode, hexDigit_roundtrip _ hhi, hexDigit_roundtrip _ hlo,
      ih (fun x hx => hb x (List.mem_cons_of_mem _ hx))]
    have hbm : b / 16 * 16 + b % 16 = b := by omega
    rw [hbm]

theorem splitFirstColon_append : ∀ (algo rest : List Char), (∀ c ∈ algo, c ≠ ':') →
    splitFirstColon (algo ++ ':' :: rest) = some (algo, rest) := by
  intro algo rest
  induction algo with
  | nil => intro _; simp [splitFirstColon]
  | cons c cs ih =>
    intro hc
    have hcne : c ≠ ':' := hc c (List.mem_cons_self _ _)
    simp only [List.cons_append, splitFirstColon, List.append_eq]
    rw [if_neg hcne, ih (fun x hx => hc x (List.mem_cons_of_mem _ hx))]

theorem unmarshalHash_roundtrip (h : Hash) (hwf : hashWF h = true) :
    unmarshalHashJson (marshalHashJson h) = .ok h := by
  obtain ⟨algo, bytes⟩ := h
  simp only [hashWF, getHasherOk] at hwf
  simp only [Bool.decide_and, Bool.and_eq_true, decide_eq_true_eq, List.all_eq_true] at hwf
  obtain ⟨halgo, hne, hall⟩ := hwf
  have hall2 : ∀ b ∈ bytes, b < 256 := fun b hb => by
    have := hall b hb
    simpa using this
  have hnocolon : ∀ c ∈ algo, c ≠ ':' := by
    rcases halgo with h1 | h1 <;> (subst h1; decide)
  have halgo_ne : algo ≠ [] := by
    rcases halgo with h1 | h1 <;> (subst h1; decide)
  have hhex_ne : hexEncode bytes ≠ [] := by
    cases bytes with
    | nil => exact absurd rfl hne
    | cons b bs => simp [hexEncode]
  have hgh : getHasherOk algo = true := by
    rcases halgo with h1 | h1 <;> simp [getHasherOk, h1]
  have h3 : parseHash (algo ++ ':' :: hexEncode bytes) = .ok (algo, hexEncode bytes) := by
    simp [parseHash, splitFirstColon_append algo (hexEncode bytes) hnocolon,
      halgo_ne, hhex_ne, hgh]
  have h1 : ¬(('"' :: ((algo ++ ':' :: hexEncode bytes) ++ ['"'])).length < 2) := by
    simp only [List.length_append, List.length_cons]
    omega
  have h2 : ('"' :: ((algo ++ ':' :: hexEncode bytes) ++ ['"'])).getLast? = some '"' :=
    List.getLast?_concat ('"' :: (algo ++ ':' :: hexEncode bytes))
  have hd1 : ((('"' :: ((algo ++ ':' :: hexEncode bytes) ++ ['"'])).drop 1)).dropLast
      = algo ++ ':' :: hexEncode bytes := by
    show ((algo ++ ':' :: hexEncode bytes) ++ ['"']).dropLast = _
    exact List.dropLast_concat
  show unmarshalHashJson ('"' :: ((algo ++ ':' :: hexEncode bytes) ++ ['"']))
    = .ok ⟨algo, bytes⟩
  unfold unmarshalHashJson
  rw [if_neg h1]
  rw [if_neg (by
    rw [not_or]
    exact ⟨not_not_intro rfl, not_not_intro h2⟩)]
  rw [hd1, h3]
  simp [hexDecode_hexEncode bytes hall2]

theorem unmarshalURLs_roundtrip : ∀ (urls : List (String × Hash)),
    (∀ p ∈ urls, hashWF p.2 = true) →
    unmarshalURLs (urls.map fun uh => (uh.1, marshalHashJson uh.2)) = .ok urls := by
  intro urls
  induction urls with
  | nil => intro _; rfl
  | cons p rest ih =>
    intro hp
    obtain ⟨u, h⟩ := p
    simp only [List.map_cons, unmarshalURLs,
      unmarshalHash_roundtrip h (hp (u, h) (List.mem_cons_self _ _)),
      ih (fun q hq => hp q (List.mem_cons_of_mem _ hq))]

theorem unmarshalFiles_roundtrip : ∀ (files : List (String × List (String × Hash))),
    (∀ fu ∈ files, ∀ uh ∈ fu.2, hashWF uh.2 = true) →
    unmarshalFiles
        (files.map fun fu => (fu.1, fu.2.map fun uh => (uh.1, marshalHashJson uh.2)))
      = .ok files := by
  intro files
  induction files with
  | nil => intro _; rfl
  | cons p rest ih =>
    intro hp
    obtain ⟨f, urls⟩ := p
    simp only [List.map_cons, unmarshalFiles,
      unmarshalURLs_roundtrip urls (fun q hq => hp (f, urls) (List.mem_cons_self _ _) q hq),
      ih (fun q hq uh huh => hp q (List.mem_cons_of_mem _ hq) uh huh)]

/-- C6: serialising a well-formed store with `Save` and deserialising the
written form with `Load` reproduces the same (fileID → url → digest) mapping,
each digest surviving the `algorithm:hex` textual encoding intact. -/
theorem save_load_roundtrip (lf : LockFile) (hwf : storeWF lf = true)
    (hv : lf.version = lockFileVersion) :
    loadLockJson (marshalLockFile lf) = .ok lf := by
  have hall : ∀ fu ∈ lf.files, ∀ uh ∈ fu.2, hashWF uh.2 = true := by
    simp only [storeWF, List.all_eq_true] at hwf
    exact hwf
  simp only [loadLockJson, marshalLockFile, unmarshalFiles_roundtrip lf.files hall]
  rw [if_neg (not_not_intro hv)]

theorem save_load_roundtrip_witness :
    storeWF exLock2 = true
    ∧ exLock2.version = lockFileVersion
    ∧ loadLockJson (marshalLockFile exLock2) = .ok exLock2 :=
  ⟨by decide, by decide, save_load_roundtrip exLock2 (by decide) (by decide)⟩

end Dltofu

namespace Dltofu

/-- Evaluation checks of the path model against documented `filepath.Clean`,
`Join` and `Dir` behavior on Unix paths, and of the extractor classifier. -/
theorem path_model_checks :
    filepathClean "a//b/./c/..".data = "a/b".data
    ∧ filepathClean "/dest/../outside.txt".data = "/outside.txt".data
    ∧ filepathClean "../../x".data = "../../x".data
    ∧ filepathClean "".data = ".".data
    ∧ filepathClean "/".data = "/".data
    ∧ (secureJoin "/dest".data "../outside.txt".data).isOk = false
    ∧ secureJoin "/dest".data "sub/ok.txt".data = .ok "/dest/sub/ok.txt".data
    ∧ getExtractor "Pkg.ZIP".data = .ok .zip
    ∧ getExtractor "a.tar.gz".data = .ok .tarGz
    ∧ getExtractor "b.tgz".data = .ok .tarGz
    ∧ (getExtractor "dltofu-tool-12345.tmp".data).isOk = false
    ∧ filepathDir "/dest/sub/ok.txt".data = "/dest/sub".data
    ∧ filepathDir "ok.txt".data = ".".data := by decide

/-- Evaluation checks of the digest textual-form model: hex roundtrips, the
quoted `algorithm:hex` form roundtrips, and the parser rejects an empty
digest part and an unsupported algorithm. -/
theorem hash_text_model_checks :
    hexDecode (hexEncode [0, 255, 16]) = .ok [0, 255, 16]
    ∧ unmarshalHashJson (marshalHashJson ⟨"sha256".data, [171, 205]⟩)
        = .ok ⟨"sha256".data, [171, 205]⟩
    ∧ exceptIsError (parseHash "sha256:".data) = true
    ∧ exceptIsError (parseHash "md5:abcd".data) = true
    ∧ exceptIsError (loadLockJson { version := 2, files := [] }) = true := by decide

end Dltofu
